import Mathlib

/-!
Shallow embedding of `chinchonator.py` (the Chinchón card game engine):
cards, the meld-scan evaluation (`Hand.straight_evaluate`), the brute-force
permutation search (`Hand.evaluate`), the deck operations, the hand
operations (`throw`, `get_deck`, `get_table`, `deck_or_table`, `move`) and
the round scoring performed by `Game.flip`.

Conventions used throughout:
* Python lists are Lean `List`s; `list.pop()` (from the end) is `getLast?` /
  `dropLast`; `list.append` is `++ [·]`.
* Machine integers are `Nat` (card numbers, values, totals) or `Int`
  (running scores, which can go negative through the -10 bonus).
* A Python method that can raise `IllegalMovement` is a function into
  `Outcome`, which records the state at the moment of the raise; an
  uncaught exception (`IndexError`, `TypeError`, `raise Exception("WOT")`)
  is modelled as `Outcome.crash` / `Option.none`.
* `random.shuffle` is an oracle parameter `sh : List Card → List Card`;
  theorems that need it assume `∀ l, sh l ~ l`.
-/

namespace Chinchon

/-- The four suits of the Spanish deck (`Card.suit_color` keys). -/
inductive Suit where
  | Bastos | Copas | Espadas | Oros
deriving DecidableEq, Repr

/-- A card: suit plus internal number 1..10 (`Card.__init__` stores `suit`
and `number`; face cards are internally 8, 9, 10). -/
structure Card where
  suit : Suit
  number : Nat
deriving DecidableEq, Repr

/-- Value of a card, `Card.value`, derived in `Card.__init__`:
`10 if number > 10 else number`. -/
def Card.value (c : Card) : Nat := if c.number > 10 then 10 else c.number

instance : Inhabited Card := ⟨⟨Suit.Bastos, 1⟩⟩

/-- The run test of `straight_evaluate`: same suit, strictly consecutive
ascending numbers (`base[n].number == base[n-1].number + 1` etc.). -/
def isRun (a b c : Card) : Bool :=
  (c.number == b.number + 1) && (b.number == a.number + 1) &&
  (c.suit == b.suit) && (b.suit == a.suit)

/-- The set test of `straight_evaluate`: all three numbers equal. -/
def isSet (a b c : Card) : Bool :=
  (c.number == b.number) && (b.number == a.number)

/-- The initial `values` array of `straight_evaluate`:
`values[i] = base[i].value`. -/
def initValues (base : List Card) : List Nat := base.map Card.value

/-- One iteration of the `while` loop of `straight_evaluate` at index `n`:
for `n ≥ 2`, if the triple `(base[n-2], base[n-1], base[n])` is a run or a
set and `values[n-1] != 0` and `values[n-2] != 0`, zero all three entries;
if the triple is neither a run nor a set, set `values[n] = base[n].value`;
for `n < 2`, set `values[n] = base[n].value`. -/
def scanStep (base : List Card) (values : List Nat) (n : Nat) : List Nat :=
  if 2 ≤ n then
    let a := base.getD (n - 2) default
    let b := base.getD (n - 1) default
    let c := base.getD n default
    if isRun a b c then
      if values.getD (n - 1) 0 ≠ 0 ∧ values.getD (n - 2) 0 ≠ 0 then
        ((values.set n 0).set (n - 1) 0).set (n - 2) 0
      else values
    else if isSet a b c then
      if values.getD (n - 1) 0 ≠ 0 ∧ values.getD (n - 2) 0 ≠ 0 then
        ((values.set n 0).set (n - 1) 0).set (n - 2) 0
      else values
    else values.set n c.value
  else values.set n ((base.getD n default).value)

/-- The `values` array after the whole scan loop of `straight_evaluate`. -/
def scanLoop (base : List Card) : List Nat :=
  (List.range base.length).foldl (scanStep base) (initValues base)

/-- The positional pass of `straight_evaluate`:
`positional = list(reversed(range(l)))`, then `positional[n] = 0`
wherever `values[n] == 0`, and `total_pos` is its sum. -/
def posLoop (values : List Nat) : Nat :=
  ((List.range values.length).foldl
    (fun p n => if values.getD n 0 = 0 then p.set n 0 else p)
    (List.range values.length).reverse).sum

/-- The scan `Hand.straight_evaluate`: returns `(total, total_pos)` for one
permutation. -/
def straight_evaluate (base : List Card) : Nat × Nat :=
  let values := scanLoop base
  (values.sum, posLoop values)

/-- All `(chosen element, remaining list)` pairs, one per position, in
position order; the building block for `itertools.permutations` order. -/
def picks : List Card → List (Card × List Card)
  | [] => []
  | a :: l => (a, l) :: (picks l).map (fun p => (p.1, a :: p.2))

/-- All permutations of a list in the order `itertools.permutations`
yields them (lexicographic in the original indices), with fuel. -/
def permsAux : Nat → List Card → List (List Card)
  | 0, _ => [[]]
  | n + 1, l => (picks l).flatMap (fun p => (permsAux n p.2).map (p.1 :: ·))

/-- All permutations of `l` in `itertools.permutations` order. -/
def permsIt (l : List Card) : List (List Card) := permsAux l.length l

/-- The loop of `Hand.evaluate` over the permutations: keeps
`(min_value, min_pos, best_position)`.  Crucially `min_pos` is assigned in
the `current_value < min_value` branch only when it is still `None`
(`if min_pos is None`), so it can go stale.  A comparison
`min_pos > current_pos` with `min_pos = None` raises `TypeError` in
Python 3; that is the `none` result. -/
def evalLoop : List (List Card) → Nat → Option Nat → Option (List Card) →
    Option (Option (List Card) × Nat)
  | [], mv, _, best => some (best, mv)
  | p :: ps, mv, mp, best =>
    let r := straight_evaluate p
    if r.1 < mv then
      evalLoop ps r.1 (if mp.isNone then some r.2 else mp) (some p)
    else if r.1 = mv then
      match mp with
      | none => none
      | some m =>
        if m > r.2 then evalLoop ps mv (some r.2) (some p)
        else evalLoop ps mv mp best
    else evalLoop ps mv mp best

/-- The search `Hand.evaluate`: brute-force search over all permutations, starting
from `min_value = 900`, `min_pos = None`, `best_position = None`. -/
def evaluate (base : List Card) : Option (Option (List Card) × Nat) :=
  evalLoop (permsIt base) 900 none none

/-- The naive sum of the card values of a list. -/
def sumValues (l : List Card) : Nat := (l.map Card.value).sum

/-- A `Deck`: the face-down draw pile (`self.cards`, popped from the end)
and the face-up discard pile (`self.table`, top is the last element). -/
structure Deck where
  cards : List Card
  table : List Card
deriving DecidableEq, Repr

namespace Deck

/-- The operation `Deck.put`: push a card on top of the table. -/
def put (d : Deck) (card : Card) : Deck := { d with table := d.table ++ [card] }

/-- The operation `Deck.last`: the top of the table (`None` models the `'Empty'` string
the Python code returns when the table is empty, which is not a `Card`). -/
def last (d : Deck) : Option Card := d.table.getLast?

/-- The operation `Deck.get_down`: pop the draw pile; on `IndexError` move every table
card but the topmost into the draw pile (`table[0..len-2]` appended, then
`del table[0]` repeated `len-1` times), shuffle, and pop again.  A second
`IndexError` (nothing to pop after the reshuffle) is an uncaught crash,
modelled as `none`.  `sh` is the `random.shuffle` oracle. -/
def get_down (sh : List Card → List Card) (d : Deck) : Option (Card × Deck) :=
  match d.cards.getLast? with
  | some c => some (c, { d with cards := d.cards.dropLast })
  | none =>
    let moved := d.table.dropLast
    let cards' := sh (d.cards ++ moved)
    let table' := d.table.drop (d.table.length - 1)
    match cards'.getLast? with
    | some c => some (c, { cards := cards'.dropLast, table := table' })
    | none => none

/-- The operation `Deck.get_table`: pop the top of the table; popping an empty table is
an uncaught `IndexError`, modelled as `none`. -/
def get_table (d : Deck) : Option (Card × Deck) :=
  match d.table.getLast? with
  | some c => some (c, { d with table := d.table.dropLast })
  | none => none

end Deck

/-- A `Hand`: the player's cards plus the shared deck it mutates. -/
structure Hand where
  cards : List Card
  deck : Deck
deriving DecidableEq, Repr

/-- Result of a Python method on a `Hand`: normal return with the new
state, `IllegalMovement` raised (carrying the state at the raise, which
the code never mutates beforehand), or an uncaught exception (`crash`). -/
inductive Outcome (α : Type) where
  | ok (a : α) (h : Hand)
  | illegal (h : Hand)
  | crash
deriving DecidableEq, Repr

namespace Hand

/-- The operation `Hand.throw`: discard the card at `position` (face down when `flip`).
Raises `IllegalMovement` unless exactly 8 cards are held; with `flip`,
also raises when the remaining 7 cards evaluate to more than 4.  Only
after all raise points does it remove the card and put it on the table. -/
def throw (h : Hand) (position : Nat) (flip : Bool) : Outcome Unit :=
  if h.cards.length ≠ 8 then .illegal h
  else if flip then
    if position < h.cards.length then
      match evaluate (h.cards.eraseIdx position) with
      | none => .crash
      | some (_, val) =>
        if val > 4 then .illegal h
        else .ok () ⟨h.cards.eraseIdx position,
                     h.deck.put (h.cards.getD position default)⟩
    else .crash
  else
    if position < h.cards.length then
      .ok () ⟨h.cards.eraseIdx position,
              h.deck.put (h.cards.getD position default)⟩
    else .crash

/-- The operation `Hand.get_deck`: draw the top of the draw pile.  Raises
`IllegalMovement` unless exactly 7 cards are held. -/
def get_deck (sh : List Card → List Card) (h : Hand) : Outcome Unit :=
  if h.cards.length ≠ 7 then .illegal h
  else
    match h.deck.get_down sh with
    | none => .crash
    | some (card, d') => .ok () ⟨h.cards ++ [card], d'⟩

/-- The operation `Hand.get_table`: draw the top of the table.  Raises
`IllegalMovement` unless exactly 7 cards are held. -/
def get_table (h : Hand) : Outcome Unit :=
  if h.cards.length ≠ 7 then .illegal h
  else
    match h.deck.get_table with
    | none => .crash
    | some (card, d') => .ok () ⟨h.cards ++ [card], d'⟩

/-- The choice `Hand.deck_or_table`: compare the hand's value with the value after
speculatively appending the table's top card; `false` means draw from the
table, `true` from the deck.  An empty table makes the Python code append
the string `'Empty'` to a card list, which crashes inside
`straight_evaluate`; modelled as `none`. -/
def deck_or_table (h : Hand) : Option Bool :=
  match evaluate h.cards with
  | none => none
  | some (_, curval) =>
    match h.deck.last with
    | none => none
    | some deckc =>
      match evaluate (h.cards ++ [deckc]) with
      | none => none
      | some (_, val) => some (if val < curval then false else true)

/-- The turn `Hand.move`: the automated player's turn.  Draw (deck or table), find
the last card of the best 8-card arrangement, locate it in the hand
(`to_throw == card`; `Card` has no `__eq__`, so Python compares object
identity — the permutation holds the very objects of `self.cards`, and
within one deck distinct card objects have distinct suit/number, so
value equality is the same test), re-evaluate without it, and either
signal a close (returning the position) or throw it and return `-1`. -/
def move (sh : List Card → List Card) (h : Hand) : Outcome Int :=
  match h.deck_or_table with
  | none => .crash
  | some b =>
    match (if b then get_deck sh h else get_table h) with
    | .crash => .crash
    | .illegal s => .illegal s
    | .ok _ h' =>
      match evaluate h'.cards with
      | none => .crash
      | some (posOpt, _) =>
        match posOpt with
        | none => .crash
        | some pos =>
          match pos[7]? with
          | none => .crash
          | some to_throw =>
            match h'.cards.findIdx? (fun card => to_throw == card) with
            | none => .crash
            | some nthrow =>
              match evaluate (h'.cards.eraseIdx nthrow) with
              | none => .crash
              | some (pos7, val) =>
                if val < 5 then
                  match pos7 with
                  | none => .crash
                  | some p7 =>
                    match p7[6]? with
                    | none => .crash
                    | some c6 =>
                      if c6.number < 5 then .ok (nthrow : Int) h'
                      else
                        match throw h' nthrow false with
                        | .ok _ h'' => .ok (-1) h''
                        | .illegal s => .illegal s
                        | .crash => .crash
                else
                  match throw h' nthrow false with
                  | .ok _ h'' => .ok (-1) h''
                  | .illegal s => .illegal s
                  | .crash => .crash

end Hand

/-- The two running totals kept by `Game` (`human_count`,
`machine_count`).  They can go negative through the -10 bonus. -/
structure Scores where
  human_count : Int
  machine_count : Int
deriving DecidableEq, Repr

/-- Which player `Game.flip` declares the round-cycle winner. -/
inductive Winner where
  | human | machine
deriving DecidableEq, Repr

/-- The scoring tail of `Game.flip` (after the successful closing throw,
before `reset`): add each evaluated total (0 becomes -10) to the running
counts, then the two sequential `> 100` checks, each resetting both
counts and printing the other player as winner. -/
def flipScore (hval mval : Nat) (s : Scores) : Scores × Option Winner :=
  let mv : Int := if mval = 0 then -10 else (mval : Int)
  let hv : Int := if hval = 0 then -10 else (hval : Int)
  let s1 : Scores := ⟨s.human_count + hv, s.machine_count + mv⟩
  let r2 : Scores × Option Winner :=
    if 100 < s1.human_count then (⟨0, 0⟩, some Winner.machine) else (s1, none)
  if 100 < r2.1.machine_count then (⟨0, 0⟩, some Winner.human) else r2

/-- Scoring of `Game.flip` tied to the hands: both hands are evaluated
(`self.human.value()` / `self.machine.value()`) and the totals fed to the
count updates; `none` models a crash inside `evaluate`. -/
def gameFlip (humanCards machineCards : List Card) (s : Scores) :
    Option (Scores × Option Winner) :=
  match evaluate humanCards, evaluate machineCards with
  | some (_, hval), some (_, mval) => some (flipScore hval mval s)
  | _, _ => none

/-- A Python `Card` object: its attributes plus an allocation identity.
`Card` defines no `__eq__`, so `==` between two card objects falls back
to `object.__eq__`, i.e. identity comparison. -/
structure CardObj where
  ident : Nat
  data : Card
deriving DecidableEq, Repr

/-- Python `==` on two `Card` objects (identity, since no `__eq__`). -/
def pyEqCard (a b : CardObj) : Bool := a.ident == b.ident

/-!  Claim-side (specification) definitions, written from the spec's own
words, to be compared with the embedded code above. -/

/-- Spec-side recursion for the per-position scores: walk the cards left
to right carrying the previous two cards `a, b` and the scores built so
far (in reverse).  At each card `c`: if `(a, b, c)` is a run or a set and
the two previous scores are nonzero, replace them and the new one by
zeros, else emit `c.value`. -/
def specGo : Card → Card → List Card → List Nat → List Nat
  | _, _, [], acc => acc.reverse
  | a, b, c :: rest, acc =>
    let acc' :=
      if isRun a b c || isSet a b c then
        match acc with
        | vb :: va :: t =>
          if vb ≠ 0 ∧ va ≠ 0 then 0 :: 0 :: 0 :: t else c.value :: acc
        | t => c.value :: t
      else c.value :: acc
    specGo b c rest acc'

/-- Spec-side per-position scores `v` as described by the claim:
`v[i] = P[i].value` for `i < 2`; for `i ≥ 2` the meld rule of `specGo`. -/
def specValues : List Card → List Nat
  | [] => []
  | [c] => [c.value]
  | c0 :: c1 :: rest => specGo c0 c1 rest [c1.value, c0.value]

/-- Reverse-index sum kept at the *unmelded* positions: the closed form
of what the code's positional pass computes. -/
def posKept (values : List Nat) : Nat :=
  ((List.range values.length).map
    (fun i => if values.getD i 0 = 0 then 0 else values.length - 1 - i)).sum

/-- The tie-break metric exactly as claim C2 words it: reverse indices
`r[i] = (n-1-i)` zeroed at every position where `v[i] != 0`, i.e. kept
only for melded positions. -/
def posClaimC2 (values : List Nat) : Nat :=
  ((List.range values.length).map
    (fun i => if values.getD i 0 = 0 then values.length - 1 - i else 0)).sum

end Chinchon

namespace Chinchon

/-- Setting the element just after a prefix of known length. -/
lemma set_append_len {α : Type} (xs : List α) (y v : α) (zs : List α) :
    (xs ++ y :: zs).set xs.length v = xs ++ v :: zs := by
  rw [List.set_append]
  simp

/-- Reading the element just after a prefix of known length. -/
lemma getD_append_len {α : Type} (xs : List α) (y : α) (zs : List α) (d : α) :
    (xs ++ y :: zs).getD xs.length d = y := by
  rw [List.getD_append_right _ _ _ _ (le_refl _)]
  simp

/-- The scan loop from index `pre.length + 2` onwards agrees with the
spec-side recursion `specGo`. -/
lemma scan_go (base : List Card) :
    ∀ (rest pre : List Card) (a b : Card) (acc : List Nat),
      base = pre ++ a :: b :: rest →
      acc.length = pre.length + 2 →
      (List.range' (pre.length + 2) rest.length).foldl (scanStep base)
        (acc.reverse ++ rest.map Card.value) = specGo a b rest acc := by
  intro rest
  induction rest with
  | nil =>
    intro pre a b acc hbase hlen
    simp [specGo]
  | cons c rest' ih =>
    intro pre a b acc hbase hlen
    obtain ⟨vb, va, t, rfl⟩ : ∃ vb va t, acc = vb :: va :: t := by
      match acc with
      | [] => simp at hlen
      | [x] => simp at hlen
      | vb :: va :: t => exact ⟨vb, va, t, rfl⟩
    have hlt : t.length = pre.length := by simpa using hlen
    -- the current state, written with an explicit prefix of length `pre.length`
    have hacc : (vb :: va :: t).reverse = (t.reverse ++ [va]) ++ [vb] := by
      simp
    have hS : (vb :: va :: t).reverse ++ (c :: rest').map Card.value
        = t.reverse ++ va :: vb :: c.value :: rest'.map Card.value := by
      simp
    have hrange : List.range' (pre.length + 2) ((c :: rest').length)
        = (pre.length + 2) :: List.range' (pre.length + 3) rest'.length := by
      simp [List.range'_succ]
    -- the three cards the step reads
    have ha' : base.getD pre.length default = a := by
      rw [hbase]
      exact getD_append_len pre a _ default
    have hb' : base.getD (pre.length + 1) default = b := by
      rw [hbase, show pre ++ a :: b :: c :: rest' = (pre ++ [a]) ++ b :: (c :: rest') by simp]
      simpa using getD_append_len (pre ++ [a]) b _ default
    have hc' : base.getD (pre.length + 2) default = c := by
      rw [hbase, show pre ++ a :: b :: c :: rest' = ((pre ++ [a]) ++ [b]) ++ c :: rest' by simp]
      simpa using getD_append_len ((pre ++ [a]) ++ [b]) c _ default
    -- the two values the step reads
    have hva : (t.reverse ++ va :: vb :: c.value :: rest'.map Card.value).getD pre.length 0 = va := by
      rw [← hlt, show t.length = t.reverse.length by simp]
      exact getD_append_len t.reverse va _ 0
    have hvb : (t.reverse ++ va :: vb :: c.value :: rest'.map Card.value).getD (pre.length + 1) 0 = vb := by
      rw [show t.reverse ++ va :: vb :: c.value :: rest'.map Card.value
            = (t.reverse ++ [va]) ++ vb :: c.value :: rest'.map Card.value by simp,
          ← hlt]
      have : t.length + 1 = (t.reverse ++ [va]).length := by simp
      rw [this]
      exact getD_append_len (t.reverse ++ [va]) vb _ 0
    -- the written states
    have hfire : (((t.reverse ++ va :: vb :: c.value :: rest'.map Card.value).set (pre.length + 2) 0).set
          (pre.length + 1) 0).set pre.length 0
        = (0 :: 0 :: 0 :: t).reverse ++ rest'.map Card.value := by
      rw [show t.reverse ++ va :: vb :: c.value :: rest'.map Card.value
            = ((t.reverse ++ [va]) ++ [vb]) ++ c.value :: rest'.map Card.value by simp,
          show pre.length + 2 = (((t.reverse ++ [va]) ++ [vb])).length by simp [hlt],
          set_append_len]
      rw [show ((t.reverse ++ [va]) ++ [vb]) ++ (0 : Nat) :: rest'.map Card.value
            = (t.reverse ++ [va]) ++ vb :: (0 : Nat) :: rest'.map Card.value by simp,
          show pre.length + 1 = (t.reverse ++ [va]).length by simp [hlt],
          set_append_len]
      rw [show (t.reverse ++ [va]) ++ (0 : Nat) :: (0 : Nat) :: rest'.map Card.value
            = t.reverse ++ va :: (0 : Nat) :: (0 : Nat) :: rest'.map Card.value by simp,
          show pre.length = t.reverse.length by simp [hlt],
          set_append_len]
      simp
    have hsame : (t.reverse ++ va :: vb :: c.value :: rest'.map Card.value).set (pre.length + 2) c.value
        = t.reverse ++ va :: vb :: c.value :: rest'.map Card.value := by
      rw [show t.reverse ++ va :: vb :: c.value :: rest'.map Card.value
            = ((t.reverse ++ [va]) ++ [vb]) ++ c.value :: rest'.map Card.value by simp,
          show pre.length + 2 = (((t.reverse ++ [va]) ++ [vb])).length by simp [hlt],
          set_append_len]
    have hnext : ∀ acc' : List Nat, acc'.length = pre.length + 3 →
        (List.range' (pre.length + 3) rest'.length).foldl (scanStep base)
          (acc'.reverse ++ rest'.map Card.value) = specGo b c rest' acc' := by
      intro acc' hl'
      have := ih (pre ++ [a]) b c acc' (by simpa using hbase) (by simpa using hl')
      simpa using this
    rw [hrange, List.foldl_cons, hS]
    -- unfold the step
    have h2 : 2 ≤ pre.length + 2 := by omega
    by_cases hr : isRun a b c
    · by_cases hcnd : vb ≠ 0 ∧ va ≠ 0
      · rw [show scanStep base (t.reverse ++ va :: vb :: c.value :: rest'.map Card.value) (pre.length + 2)
              = (0 :: 0 :: 0 :: t).reverse ++ rest'.map Card.value by
            simp only [scanStep, if_pos h2, Nat.add_sub_cancel,
              show pre.length + 2 - 1 = pre.length + 1 by omega,
              ha', hb', hc', hva, hvb, hr, if_pos hcnd, hfire, if_true]]
        rw [hnext (0 :: 0 :: 0 :: t) (by simp [hlt]),
            show specGo a b (c :: rest') (vb :: va :: t) = specGo b c rest' (0 :: 0 :: 0 :: t) by
              simp only [specGo, hr, Bool.true_or, if_true, if_pos hcnd]]
      · rw [show scanStep base (t.reverse ++ va :: vb :: c.value :: rest'.map Card.value) (pre.length + 2)
              = t.reverse ++ va :: vb :: c.value :: rest'.map Card.value by
            simp only [scanStep, if_pos h2, Nat.add_sub_cancel,
              show pre.length + 2 - 1 = pre.length + 1 by omega,
              ha', hb', hc', hva, hvb, hr, if_neg hcnd, if_true]]
        have : t.reverse ++ va :: vb :: c.value :: rest'.map Card.value
            = (c.value :: vb :: va :: t).reverse ++ rest'.map Card.value := by simp
        rw [this, hnext (c.value :: vb :: va :: t) (by simp [hlt]),
            show specGo a b (c :: rest') (vb :: va :: t)
              = specGo b c rest' (c.value :: vb :: va :: t) by
              simp only [specGo, hr, Bool.true_or, if_true, if_neg hcnd]]
    · by_cases hs : isSet a b c
      · by_cases hcnd : vb ≠ 0 ∧ va ≠ 0
        · rw [show scanStep base (t.reverse ++ va :: vb :: c.value :: rest'.map Card.value) (pre.length + 2)
                = (0 :: 0 :: 0 :: t).reverse ++ rest'.map Card.value by
              simp only [scanStep, if_pos h2, Nat.add_sub_cancel,
                show pre.length + 2 - 1 = pre.length + 1 by omega,
                ha', hb', hc', hva, hvb, hr, hs, if_pos hcnd, hfire, if_true, if_false,
                Bool.false_eq_true]]
          rw [hnext (0 :: 0 :: 0 :: t) (by simp [hlt]),
              show specGo a b (c :: rest') (vb :: va :: t) = specGo b c rest' (0 :: 0 :: 0 :: t) by
                simp only [specGo, hr, hs, Bool.false_or, Bool.true_or, if_true, if_pos hcnd]]
        · rw [show scanStep base (t.reverse ++ va :: vb :: c.value :: rest'.map Card.value) (pre.length + 2)
                = t.reverse ++ va :: vb :: c.value :: rest'.map Card.value by
              simp only [scanStep, if_pos h2, Nat.add_sub_cancel,
                show pre.length + 2 - 1 = pre.length + 1 by omega,
                ha', hb', hc', hva, hvb, hr, hs, if_neg hcnd, if_true, if_false,
                Bool.false_eq_true]]
          have : t.reverse ++ va :: vb :: c.value :: rest'.map Card.value
              = (c.value :: vb :: va :: t).reverse ++ rest'.map Card.value := by simp
          rw [this, hnext (c.value :: vb :: va :: t) (by simp [hlt]),
              show specGo a b (c :: rest') (vb :: va :: t)
                = specGo b c rest' (c.value :: vb :: va :: t) by
                simp only [specGo, hr, hs, Bool.false_or, if_true, if_neg hcnd]]
      · rw [show scanStep base (t.reverse ++ va :: vb :: c.value :: rest'.map Card.value) (pre.length + 2)
              = t.reverse ++ va :: vb :: c.value :: rest'.map Card.value by
            simp only [scanStep, if_pos h2, Nat.add_sub_cancel,
              show pre.length + 2 - 1 = pre.length + 1 by omega,
              ha', hb', hc', hva, hvb, hr, hs, hsame, if_false, Bool.false_eq_true]]
        have : t.reverse ++ va :: vb :: c.value :: rest'.map Card.value
            = (c.value :: vb :: va :: t).reverse ++ rest'.map Card.value := by simp
        rw [this, hnext (c.value :: vb :: va :: t) (by simp [hlt]),
            show specGo a b (c :: rest') (vb :: va :: t)
              = specGo b c rest' (c.value :: vb :: va :: t) by
              simp only [specGo, hr, hs, Bool.false_or, if_false, Bool.false_eq_true]]

/-- The code's values array equals the spec-side values. -/
lemma scanLoop_eq_specValues (base : List Card) : scanLoop base = specValues base := by
  match base with
  | [] => rfl
  | [c] => rfl
  | c0 :: c1 :: rest =>
    have hrange : List.range (c0 :: c1 :: rest).length
        = 0 :: 1 :: List.range' 2 rest.length := by
      rw [List.range_eq_range']
      simp [List.range'_succ]
    rw [scanLoop, hrange]
    have h0 : scanStep (c0 :: c1 :: rest) (initValues (c0 :: c1 :: rest)) 0
        = initValues (c0 :: c1 :: rest) := by
      simp [scanStep, initValues]
    have h1 : scanStep (c0 :: c1 :: rest) (initValues (c0 :: c1 :: rest)) 1
        = initValues (c0 :: c1 :: rest) := by
      simp [scanStep, initValues]
    rw [List.foldl_cons, h0, List.foldl_cons, h1]
    have := scan_go (c0 :: c1 :: rest) rest [] c0 c1 [c1.value, c0.value] (by simp) (by simp)
    simpa [initValues, specValues] using this

end Chinchon

namespace Chinchon

/-- A reversed `range` lists the reverse indices. -/
lemma reverse_range (L : Nat) :
    (List.range L).reverse = (List.range L).map (fun i => L - 1 - i) := by
  apply List.ext_getElem (by simp)
  intro n h1 h2
  simp [List.getElem_reverse]

/-- The positional pass from index `k` onwards, with the first `k`
entries already decided. -/
lemma pos_go (values : List Nat) :
    ∀ (m k : Nat) (A : List Nat), A.length = k →
      (List.range' k m).foldl (fun p n => if values.getD n 0 = 0 then p.set n 0 else p)
        (A ++ (List.range' k m).map (fun i => values.length - 1 - i))
      = A ++ (List.range' k m).map
          (fun i => if values.getD i 0 = 0 then 0 else values.length - 1 - i) := by
  intro m
  induction m with
  | zero => intro k A _; simp
  | succ m ih =>
    intro k A hA
    subst hA
    rw [List.range'_succ]
    simp only [List.map_cons, List.foldl_cons]
    by_cases h0 : values.getD A.length 0 = 0
    · rw [if_pos h0, set_append_len, if_pos h0]
      have h2 := ih (A.length + 1) (A ++ [0]) (by simp)
      simpa using h2
    · rw [if_neg h0, if_neg h0]
      have h2 := ih (A.length + 1) (A ++ [values.length - 1 - A.length]) (by simp)
      simpa using h2

/-- The code's positional pass computes the reverse-index sum kept at the
unmelded positions. -/
lemma posLoop_eq_posKept (values : List Nat) : posLoop values = posKept values := by
  have h := pos_go values values.length 0 [] rfl
  simp only [List.nil_append] at h
  rw [posLoop, posKept, reverse_range, List.range_eq_range', h]

/-- Each `scanStep` preserves the length of the values array. -/
lemma scanStep_length (base : List Card) (v : List Nat) (n : Nat) :
    (scanStep base v n).length = v.length := by
  simp only [scanStep]
  split
  · split
    · split <;> simp
    · split
      · split <;> simp
      · simp
  · simp

/-- The scan loop preserves the length of the values array. -/
lemma scanLoop_length (base : List Card) : (scanLoop base).length = base.length := by
  rw [scanLoop]
  have h : ∀ (l : List Nat) (idx : List Nat) (v : List Nat),
      (idx.foldl (scanStep base) v).length = v.length := by
    intro _ idx
    induction idx with
    | nil => intro v; rfl
    | cons i idx ih => intro v; rw [List.foldl_cons, ih, scanStep_length]
  rw [h [] (List.range base.length) (initValues base), initValues, List.length_map]

end Chinchon

namespace Chinchon

/-- C3: for every permutation P, the meld scan computes the per-position
scores exactly as described — `v[i] = P[i].value` for `i < 2`, and for
`i ≥ 2` the triple is zeroed when it forms a run or a set and the two
previous scores are nonzero, otherwise `v[i] = P[i].value` — and the
returned total is the sum of those scores. -/
theorem meld_scan_values_spec (P : List Card) :
    scanLoop P = specValues P ∧ (straight_evaluate P).1 = (specValues P).sum := by
  refine ⟨scanLoop_eq_specValues P, ?_⟩
  simp [straight_evaluate, scanLoop_eq_specValues]

/-- C2 counterexample: on the all-melded permutation `1B 2B 3B` the code's
tie-break metric is 0, while the claimed formula (reverse indices kept at
the melded positions) gives 3. -/
theorem pos_metric_claim_cex :
    (straight_evaluate [⟨Suit.Bastos, 1⟩, ⟨Suit.Bastos, 2⟩, ⟨Suit.Bastos, 3⟩]).2 = 0 ∧
    posClaimC2 (scanLoop [⟨Suit.Bastos, 1⟩, ⟨Suit.Bastos, 2⟩, ⟨Suit.Bastos, 3⟩]) = 3 := by
  decide

/-- C2 amended: the tie-break metric equals the sum of the reverse
indices `r[i] = (n-1-i)` with `r[i]` zeroed at every position where
`v[i] == 0`, i.e. the reverse index is kept only for the *unmelded*
positions. -/
theorem pos_metric_code (P : List Card) :
    (straight_evaluate P).2 = posKept (scanLoop P) ∧ (scanLoop P).length = P.length := by
  refine ⟨?_, scanLoop_length P⟩
  simp [straight_evaluate, posLoop_eq_posKept]

/-- A chosen element together with the rest is a permutation of the list. -/
lemma picks_sound :
    ∀ (l : List Card) (x : Card) (r : List Card), (x, r) ∈ picks l → (x :: r).Perm l := by
  intro l
  induction l with
  | nil => intro x r h; simp [picks] at h
  | cons a t ih =>
    intro x r h
    rw [picks, List.mem_cons] at h
    rcases h with h | h
    · obtain ⟨rfl, rfl⟩ : x = a ∧ r = t := by simpa using h
      exact List.Perm.refl _
    · obtain ⟨⟨y, s⟩, hmem, heq⟩ := List.mem_map.mp h
      obtain ⟨rfl, rfl⟩ : x = y ∧ r = a :: s := by simpa using heq.symm
      exact (List.Perm.swap a x s).trans ((ih x s hmem).cons a)

/-- Every member yields a pick whose rest is the list with it erased. -/
lemma picks_mem_of_mem :
    ∀ (l : List Card) (x : Card), x ∈ l → (x, l.erase x) ∈ picks l := by
  intro l
  induction l with
  | nil => intro x h; simp at h
  | cons a t ih =>
    intro x h
    by_cases hx : x = a
    · subst hx
      rw [List.erase_cons_head, picks]
      exact List.mem_cons_self _ _
    · have hxt : x ∈ t := by
        rcases List.mem_cons.mp h with h' | h'
        · exact absurd h' hx
        · exact h'
      have hax : ¬(a = x) := fun h => hx h.symm
      rw [List.erase_cons_tail (by simpa using hax), picks]
      refine List.mem_cons_of_mem _ ?_
      exact List.mem_map.mpr ⟨(x, t.erase x), ih x hxt, rfl⟩

/-- Soundness of the permutation enumeration. -/
lemma permsAux_sound :
    ∀ (n : Nat) (l : List Card), l.length = n → ∀ p ∈ permsAux n l, p.Perm l := by
  intro n
  induction n with
  | zero =>
    intro l hl p hp
    have : l = [] := List.length_eq_zero.mp hl
    subst this
    simp [permsAux] at hp
    simp [hp]
  | succ n ih =>
    intro l hl p hp
    rw [permsAux, List.mem_flatMap] at hp
    obtain ⟨⟨x, r⟩, hpick, hp⟩ := hp
    obtain ⟨q, hq, rfl⟩ := List.mem_map.mp hp
    have hxr : (x :: r).Perm l := picks_sound l x r hpick
    have hr : r.length = n := by
      have := hxr.length_eq
      simp [hl] at this
      omega
    exact ((ih r hr q hq).cons x).trans hxr

/-- Completeness of the permutation enumeration. -/
lemma permsAux_complete :
    ∀ (n : Nat) (l p : List Card), l.length = n → p.Perm l → p ∈ permsAux n l := by
  intro n
  induction n with
  | zero =>
    intro l p hl hp
    have : l = [] := List.length_eq_zero.mp hl
    subst this
    have : p = [] := hp.eq_nil
    simp [this, permsAux]
  | succ n ih =>
    intro l p hl hp
    match p, hp with
    | [], hp => exact absurd (hp.length_eq.trans hl) (by simp)
    | x :: q, hp =>
      obtain ⟨hx, hq⟩ := List.cons_perm_iff_perm_erase.mp hp
      have hlen : (l.erase x).length = n := by
        rw [List.length_erase_of_mem hx, hl]
        omega
      rw [permsAux, List.mem_flatMap]
      exact ⟨(x, l.erase x), picks_mem_of_mem l x hx,
        List.mem_map.mpr ⟨q, ih (l.erase x) q hlen hq, rfl⟩⟩

/-- Everything `permsIt` lists is a permutation. -/
lemma permsIt_sound (l p : List Card) (h : p ∈ permsIt l) : p.Perm l :=
  permsAux_sound l.length l rfl p h

/-- Every permutation is listed by `permsIt`. -/
lemma permsIt_complete (l p : List Card) (h : p.Perm l) : p ∈ permsIt l :=
  permsAux_complete l.length l p rfl h

/-- A list is among its own permutations. -/
lemma self_mem_permsIt (l : List Card) : l ∈ permsIt l :=
  permsIt_complete l l (List.Perm.refl l)

/-- The spec-side scores never sum to more than the untouched values. -/
lemma specGo_sum_le (rest : List Card) :
    ∀ (a b : Card) (acc : List Nat),
      (specGo a b rest acc).sum ≤ acc.sum + sumValues rest := by
  induction rest with
  | nil => intro a b acc; simp [specGo, sumValues, List.sum_reverse]
  | cons c r ih =>
    intro a b acc
    have hsum : sumValues (c :: r) = c.value + sumValues r := by simp [sumValues]
    rcases acc with _ | ⟨vb, acc1⟩
    · have hred : specGo a b (c :: r) [] = specGo b c r [c.value] := by
        by_cases hsh : isRun a b c || isSet a b c
        · simp [specGo, hsh]
        · simp [specGo, hsh]
      rw [hred, hsum]
      have := ih b c [c.value]
      simp only [List.sum_cons, List.sum_nil] at this ⊢
      omega
    · rcases acc1 with _ | ⟨va, t⟩
      · have hred : specGo a b (c :: r) [vb] = specGo b c r (c.value :: [vb]) := by
          by_cases hsh : isRun a b c || isSet a b c
          · simp [specGo, hsh]
          · simp [specGo, hsh]
        rw [hred, hsum]
        have := ih b c (c.value :: [vb])
        simp only [List.sum_cons, List.sum_nil] at this ⊢
        omega
      · by_cases hsh : isRun a b c || isSet a b c
        · by_cases hcnd : vb ≠ 0 ∧ va ≠ 0
          · have hred : specGo a b (c :: r) (vb :: va :: t)
                = specGo b c r (0 :: 0 :: 0 :: t) := by
              simp [specGo, hsh, hcnd.1, hcnd.2]
            rw [hred, hsum]
            have := ih b c (0 :: 0 :: 0 :: t)
            simp only [List.sum_cons] at this ⊢
            omega
          · have hred : specGo a b (c :: r) (vb :: va :: t)
                = specGo b c r (c.value :: vb :: va :: t) := by
              simp [specGo, hsh, hcnd]
            rw [hred, hsum]
            have := ih b c (c.value :: vb :: va :: t)
            simp only [List.sum_cons] at this ⊢
            omega
        · have hred : specGo a b (c :: r) (vb :: va :: t)
              = specGo b c r (c.value :: vb :: va :: t) := by
            simp [specGo, hsh]
          rw [hred, hsum]
          have := ih b c (c.value :: vb :: va :: t)
          simp only [List.sum_cons] at this ⊢
          omega

/-- Melding can only lower the naive sum of a permutation. -/
lemma straight_evaluate_fst_le (p : List Card) :
    (straight_evaluate p).1 ≤ sumValues p := by
  have h := (meld_scan_values_spec p).2
  rw [h]
  match p with
  | [] => simp [specValues, sumValues]
  | [c] => simp [specValues, sumValues]
  | c0 :: c1 :: rest =>
    have := specGo_sum_le rest c0 c1 [c1.value, c0.value]
    have hs : sumValues (c0 :: c1 :: rest) = c0.value + (c1.value + sumValues rest) := by
      simp [sumValues]
    rw [specValues, hs]
    simp only [List.sum_cons, List.sum_nil] at this
    omega

/-- Whatever total the evaluation loop reports is bounded by the starting
minimum and by every scanned permutation's total. -/
lemma evalLoop_le :
    ∀ (ps : List (List Card)) (mv : Nat) (mp : Option Nat) (best b : Option (List Card)) (t : Nat),
      evalLoop ps mv mp best = some (b, t) →
      t ≤ mv ∧ ∀ p ∈ ps, t ≤ (straight_evaluate p).1 := by
  intro ps
  induction ps with
  | nil =>
    intro mv mp best b t h
    simp only [evalLoop, Option.some_inj, Prod.mk.injEq] at h
    exact ⟨le_of_eq h.2.symm, by simp⟩
  | cons p ps ih =>
    intro mv mp best b t h
    simp only [evalLoop] at h
    by_cases h1 : (straight_evaluate p).1 < mv
    · rw [if_pos h1] at h
      obtain ⟨ha, hb⟩ := ih _ _ _ _ _ h
      refine ⟨le_of_lt (lt_of_le_of_lt ha h1), ?_⟩
      intro q hq
      rcases List.mem_cons.mp hq with rfl | hq
      · exact ha
      · exact hb q hq
    · rw [if_neg h1] at h
      by_cases h2 : (straight_evaluate p).1 = mv
      · rw [if_pos h2] at h
        rcases mp with _ | m
        · simp at h
        · dsimp only at h
          by_cases h3 : m > (straight_evaluate p).2
          · rw [if_pos h3] at h
            obtain ⟨ha, hb⟩ := ih _ _ _ _ _ h
            refine ⟨ha, ?_⟩
            intro q hq
            rcases List.mem_cons.mp hq with rfl | hq
            · rw [h2]; exact ha
            · exact hb q hq
          · rw [if_neg h3] at h
            obtain ⟨ha, hb⟩ := ih _ _ _ _ _ h
            refine ⟨ha, ?_⟩
            intro q hq
            rcases List.mem_cons.mp hq with rfl | hq
            · rw [h2]; exact ha
            · exact hb q hq
      · rw [if_neg h2] at h
        obtain ⟨ha, hb⟩ := ih _ _ _ _ _ h
        refine ⟨ha, ?_⟩
        intro q hq
        rcases List.mem_cons.mp hq with rfl | hq
        · exact le_trans ha (by omega)
        · exact hb q hq

end Chinchon

namespace Chinchon

/-- Main invariant of the evaluation loop: under totals below the 900
sentinel it never crashes, returns a minimal total, and the returned
arrangement is one of the scanned permutations achieving that total. -/
lemma evalLoop_spec (Q : List Card → Prop) :
    ∀ (ps : List (List Card)) (mv : Nat) (mp : Option Nat) (best : Option (List Card)),
      (∀ p ∈ ps, (straight_evaluate p).1 < 900 ∧ Q p) →
      mv ≤ 900 →
      (best = none → mp = none ∧ mv = 900) →
      (mp = none → best = none) →
      (∀ bb, best = some bb → Q bb ∧ (straight_evaluate bb).1 = mv) →
      ∃ b t, evalLoop ps mv mp best = some (b, t) ∧ t ≤ mv ∧
        (∀ p ∈ ps, t ≤ (straight_evaluate p).1) ∧
        (∀ bb, b = some bb → Q bb ∧ (straight_evaluate bb).1 = t) ∧
        (b = none → best = none ∧ ps = []) := by
  intro ps
  induction ps with
  | nil =>
    intro mv mp best _ _ _ _ hbb
    exact ⟨best, mv, rfl, le_refl _, by simp, hbb, fun h => ⟨h, rfl⟩⟩
  | cons p ps ih =>
    intro mv mp best hq hmv hbn hmpn hbb
    have hp := hq p (List.mem_cons_self p ps)
    have hq' : ∀ q ∈ ps, (straight_evaluate q).1 < 900 ∧ Q q :=
      fun q hq2 => hq q (List.mem_cons_of_mem p hq2)
    by_cases h1 : (straight_evaluate p).1 < mv
    · obtain ⟨b, t, heq, hle, hall, hbb', hnone⟩ :=
        ih (straight_evaluate p).1
          (if mp.isNone then some (straight_evaluate p).2 else mp) (some p)
          hq' (le_of_lt (lt_of_lt_of_le h1 hmv))
          (by intro hh; simp at hh)
          (by intro hmp'; rcases mp with _ | m <;> simp at hmp')
          (by intro bb hbb2; obtain rfl := Option.some.inj hbb2; exact ⟨hp.2, rfl⟩)
      refine ⟨b, t, ?_, le_trans hle (le_of_lt h1), ?_, hbb', ?_⟩
      · simp only [evalLoop]
        rw [if_pos h1]
        exact heq
      · intro q hq2
        rcases List.mem_cons.mp hq2 with rfl | hq2
        · exact hle
        · exact hall q hq2
      · intro hbnone
        obtain ⟨h1', _⟩ := hnone hbnone
        simp at h1'
    · by_cases h2 : (straight_evaluate p).1 = mv
      · rcases mp with _ | m
        · have hb := hmpn rfl
          obtain ⟨_, hmv900⟩ := hbn hb
          rw [hmv900] at h1
          exact absurd hp.1 h1
        · by_cases h3 : m > (straight_evaluate p).2
          · obtain ⟨b, t, heq, hle, hall, hbb', hnone⟩ :=
              ih mv (some (straight_evaluate p).2) (some p) hq' hmv
                (by intro hh; simp at hh)
                (by intro hh; simp at hh)
                (by intro bb hbb2; obtain rfl := Option.some.inj hbb2; exact ⟨hp.2, h2⟩)
            refine ⟨b, t, ?_, hle, ?_, hbb', ?_⟩
            · simp only [evalLoop]
              rw [if_neg h1, if_pos h2]
              rw [if_pos h3]
              exact heq
            · intro q hq2
              rcases List.mem_cons.mp hq2 with rfl | hq2
              · rw [h2]; exact hle
              · exact hall q hq2
            · intro hbnone
              obtain ⟨h1', _⟩ := hnone hbnone
              simp at h1'
          · obtain ⟨b, t, heq, hle, hall, hbb', hnone⟩ :=
              ih mv (some m) best hq' hmv
                (fun hb => absurd (hbn hb).1 (by simp))
                (by intro hh; simp at hh)
                hbb
            refine ⟨b, t, ?_, hle, ?_, hbb', ?_⟩
            · simp only [evalLoop]
              rw [if_neg h1, if_pos h2]
              rw [if_neg h3]
              exact heq
            · intro q hq2
              rcases List.mem_cons.mp hq2 with rfl | hq2
              · rw [h2]; exact hle
              · exact hall q hq2
            · intro hbnone
              obtain ⟨hbest, _⟩ := hnone hbnone
              exact absurd (hbn hbest).1 (by simp)
      · obtain ⟨b, t, heq, hle, hall, hbb', hnone⟩ :=
          ih mv mp best hq' hmv hbn hmpn hbb
        refine ⟨b, t, ?_, hle, ?_, hbb', ?_⟩
        · simp only [evalLoop]
          rw [if_neg h1, if_neg h2]
          exact heq
        · intro q hq2
          rcases List.mem_cons.mp hq2 with rfl | hq2
          · exact le_trans hle (by omega)
          · exact hall q hq2
        · intro hbnone
          obtain ⟨hbest, _⟩ := hnone hbnone
          obtain ⟨_, hmv900⟩ := hbn hbest
          rw [hmv900] at h1
          exact absurd hp.1 h1

/-- Permutations have equal naive sums. -/
lemma sumValues_perm {p q : List Card} (h : p.Perm q) : sumValues p = sumValues q :=
  (h.map Card.value).sum_eq

/-- C1 amended: `evaluate` returns one of the permutations of its input
achieving the minimum meld-scan total (the tie-break minimality of the
claim does not hold, see the counterexample). -/
theorem evaluate_min_total (C : List Card) (h : sumValues C < 900) :
    ∃ b t, evaluate C = some (some b, t) ∧ b.Perm C ∧ (straight_evaluate b).1 = t ∧
      ∀ p, p.Perm C → t ≤ (straight_evaluate p).1 := by
  have hq : ∀ p ∈ permsIt C, (straight_evaluate p).1 < 900 ∧ p.Perm C := by
    intro p hp
    have hperm := permsIt_sound C p hp
    refine ⟨lt_of_le_of_lt ?_ h, hperm⟩
    rw [← sumValues_perm hperm]
    exact straight_evaluate_fst_le p
  obtain ⟨b, t, heq, _, hall, hbb, hnone⟩ :=
    evalLoop_spec (fun p => p.Perm C) (permsIt C) 900 none none hq (le_refl _)
      (fun _ => ⟨rfl, rfl⟩) (fun _ => rfl) (by intro bb hh; cases hh)
  rcases b with _ | bb
  · obtain ⟨_, hps⟩ := hnone rfl
    have := self_mem_permsIt C
    rw [hps] at this
    simp at this
  · obtain ⟨hperm, hval⟩ := hbb bb rfl
    exact ⟨bb, t, heq, hperm, hval, fun p hp => hall p (permsIt_complete C p hp)⟩

/-- C1 amended, witness. -/
theorem evaluate_min_total_witness :
    sumValues [(⟨Suit.Oros, 5⟩ : Card)] < 900 ∧
    ∃ b t, evaluate [(⟨Suit.Oros, 5⟩ : Card)] = some (some b, t) ∧
      b.Perm [(⟨Suit.Oros, 5⟩ : Card)] ∧ (straight_evaluate b).1 = t ∧
      ∀ p, p.Perm [(⟨Suit.Oros, 5⟩ : Card)] → t ≤ (straight_evaluate p).1 :=
  ⟨by decide, evaluate_min_total [(⟨Suit.Oros, 5⟩ : Card)] (by decide)⟩

/-- C1 counterexample: on `1B 2B 7O 3B` the search returns the
arrangement `7O 1B 2B 3B` (total 7, tie-break metric 3), even though the
tied permutation `1B 2B 3B 7O` has the strictly smaller metric 0 — the
stale `min_pos` from the very first permutation blocks the update. -/
theorem evaluate_tiebreak_cex :
    evaluate [⟨Suit.Bastos, 1⟩, ⟨Suit.Bastos, 2⟩, ⟨Suit.Oros, 7⟩, ⟨Suit.Bastos, 3⟩]
      = some (some [⟨Suit.Oros, 7⟩, ⟨Suit.Bastos, 1⟩, ⟨Suit.Bastos, 2⟩, ⟨Suit.Bastos, 3⟩], 7) ∧
    (straight_evaluate [⟨Suit.Oros, 7⟩, ⟨Suit.Bastos, 1⟩, ⟨Suit.Bastos, 2⟩, ⟨Suit.Bastos, 3⟩]).2 = 3 ∧
    List.Perm ([⟨Suit.Bastos, 1⟩, ⟨Suit.Bastos, 2⟩, ⟨Suit.Bastos, 3⟩, ⟨Suit.Oros, 7⟩] : List Card)
      ([⟨Suit.Bastos, 1⟩, ⟨Suit.Bastos, 2⟩, ⟨Suit.Oros, 7⟩, ⟨Suit.Bastos, 3⟩] : List Card) ∧
    straight_evaluate [⟨Suit.Bastos, 1⟩, ⟨Suit.Bastos, 2⟩, ⟨Suit.Bastos, 3⟩, ⟨Suit.Oros, 7⟩]
      = (7, 0) := by
  decide

/-- C8: the total returned by `evaluate` never exceeds the naive sum of
the card values of the input. -/
theorem evaluate_le_naive_sum (C : List Card) (b : Option (List Card)) (t : Nat)
    (h : evaluate C = some (b, t)) : t ≤ sumValues C :=
  le_trans ((evalLoop_le (permsIt C) 900 none none b t h).2 C (self_mem_permsIt C))
    (straight_evaluate_fst_le C)

/-- C8, witness. -/
theorem evaluate_le_naive_sum_witness :
    evaluate [(⟨Suit.Oros, 5⟩ : Card)] = some (some [⟨Suit.Oros, 5⟩], 5) ∧
    (5 : Nat) ≤ sumValues [(⟨Suit.Oros, 5⟩ : Card)] :=
  ⟨by decide, evaluate_le_naive_sum [(⟨Suit.Oros, 5⟩ : Card)] (some [⟨Suit.Oros, 5⟩]) 5 (by decide)⟩

end Chinchon

namespace Chinchon

/-- Every card value is at most 10. -/
lemma card_value_le (c : Card) : c.value ≤ 10 := by
  rw [Card.value]
  split
  · exact le_refl _
  · omega

/-- Naive sums are bounded by ten points per card. -/
lemma sumValues_le (l : List Card) : sumValues l ≤ 10 * l.length := by
  induction l with
  | nil => simp [sumValues]
  | cons c t ih =>
    have := card_value_le c
    simp only [sumValues, List.map_cons, List.sum_cons, List.length_cons] at ih ⊢
    omega

/-- C4: with exactly 8 cards held, a close (`throw` with `flip`) at
position `p` raises `IllegalMovement` precisely when the remaining 7
cards evaluate to more than 4; the raise leaves hand and deck untouched,
and otherwise the throw goes through. -/
theorem throw_flip_boundary (h : Hand) (p : Nat)
    (h8 : h.cards.length = 8) (hp : p < 8) :
    ∃ pb v, evaluate (h.cards.eraseIdx p) = some (some pb, v) ∧
      (4 < v → Hand.throw h p true = Outcome.illegal h) ∧
      (v ≤ 4 → Hand.throw h p true
        = Outcome.ok () ⟨h.cards.eraseIdx p, h.deck.put (h.cards.getD p default)⟩) := by
  have hsum : sumValues (h.cards.eraseIdx p) < 900 := by
    have h1 := sumValues_le (h.cards.eraseIdx p)
    have h2 : (h.cards.eraseIdx p).length ≤ 8 := by
      rw [List.length_eraseIdx]
      split <;> omega
    omega
  obtain ⟨b, v, heq, -, -, -⟩ := evaluate_min_total _ hsum
  refine ⟨b, v, heq, ?_, ?_⟩
  · intro hv
    rw [Hand.throw, if_neg (by rw [h8]; simp), if_pos rfl, if_pos (by rw [h8]; exact hp), heq]
    simp [hv]
  · intro hv
    rw [Hand.throw, if_neg (by rw [h8]; simp), if_pos rfl, if_pos (by rw [h8]; exact hp), heq]
    simp [Nat.not_lt.mpr hv]

/-- C4, witness. -/
theorem throw_flip_boundary_witness :
    ((⟨List.replicate 8 ⟨Suit.Oros, 5⟩, ⟨[], []⟩⟩ : Hand)).cards.length = 8 ∧ 0 < 8 ∧
    ∃ pb v, evaluate (((⟨List.replicate 8 ⟨Suit.Oros, 5⟩, ⟨[], []⟩⟩ : Hand)).cards.eraseIdx 0)
        = some (some pb, v) ∧
      (4 < v → Hand.throw ⟨List.replicate 8 ⟨Suit.Oros, 5⟩, ⟨[], []⟩⟩ 0 true
        = Outcome.illegal ⟨List.replicate 8 ⟨Suit.Oros, 5⟩, ⟨[], []⟩⟩) ∧
      (v ≤ 4 → Hand.throw ⟨List.replicate 8 ⟨Suit.Oros, 5⟩, ⟨[], []⟩⟩ 0 true
        = Outcome.ok () ⟨((⟨List.replicate 8 ⟨Suit.Oros, 5⟩, ⟨[], []⟩⟩ : Hand)).cards.eraseIdx 0,
            ((⟨List.replicate 8 ⟨Suit.Oros, 5⟩, ⟨[], []⟩⟩ : Hand)).deck.put
              (((⟨List.replicate 8 ⟨Suit.Oros, 5⟩, ⟨[], []⟩⟩ : Hand)).cards.getD 0 default)⟩) :=
  ⟨by decide, by decide,
    throw_flip_boundary ⟨List.replicate 8 ⟨Suit.Oros, 5⟩, ⟨[], []⟩⟩ 0 (by decide) (by decide)⟩

/-- C5: drawing with a hand size other than 7, and throwing with a hand
size other than 8, raise `IllegalMovement` with the hand and deck left
completely unchanged. -/
theorem wrong_size_illegal (h : Hand) (sh : List Card → List Card) (p : Nat) (f : Bool) :
    (h.cards.length ≠ 7 → Hand.get_deck sh h = Outcome.illegal h ∧
      Hand.get_table h = Outcome.illegal h) ∧
    (h.cards.length ≠ 8 → Hand.throw h p f = Outcome.illegal h) := by
  constructor
  · intro h7
    constructor
    · rw [Hand.get_deck, if_pos h7]
    · rw [Hand.get_table, if_pos h7]
  · intro h8
    rw [Hand.throw, if_pos h8]

/-- C5, witness. -/
theorem wrong_size_illegal_witness :
    ((⟨[], ⟨[], []⟩⟩ : Hand)).cards.length ≠ 7 ∧
    ((⟨[], ⟨[], []⟩⟩ : Hand)).cards.length ≠ 8 ∧
    Hand.get_deck id ⟨[], ⟨[], []⟩⟩ = Outcome.illegal ⟨[], ⟨[], []⟩⟩ ∧
    Hand.get_table ⟨[], ⟨[], []⟩⟩ = Outcome.illegal ⟨[], ⟨[], []⟩⟩ ∧
    Hand.throw ⟨[], ⟨[], []⟩⟩ 0 false = Outcome.illegal ⟨[], ⟨[], []⟩⟩ :=
  ⟨by decide, by decide,
   ((wrong_size_illegal ⟨[], ⟨[], []⟩⟩ id 0 false).1 (by decide)).1,
   ((wrong_size_illegal ⟨[], ⟨[], []⟩⟩ id 0 false).1 (by decide)).2,
   (wrong_size_illegal ⟨[], ⟨[], []⟩⟩ id 0 false).2 (by decide)⟩

/-- C6 counterexample: with an empty draw pile and a single card on the
table, the draw crashes even though a card remains somewhere. -/
theorem reshuffle_single_card_cex :
    Deck.get_down id ⟨[], [⟨Suit.Oros, 5⟩]⟩ = none ∧
    ([(⟨Suit.Oros, 5⟩ : Card)] : List Card) ≠ [] := by
  decide

/-- C6 amended: when the draw pile is empty and the table holds at least
two cards, the reshuffle leaves exactly one card — the previous table top
— on the table, and the drawn card together with the new draw pile is a
permutation of the rest of the old table; the draw fails exactly when the
draw pile is empty and at most one card is on the table. -/
theorem get_down_reshuffle (sh : List Card → List Card) (d : Deck)
    (hsh : ∀ l, (sh l).Perm l) :
    (d.cards = [] → 2 ≤ d.table.length →
      ∃ c d', Deck.get_down sh d = some (c, d') ∧
        d'.table.length = 1 ∧ d'.table.getLast? = d.table.getLast? ∧
        (d'.cards ++ [c]).Perm d.table.dropLast) ∧
    (Deck.get_down sh d = none ↔ d.cards = [] ∧ d.table.length ≤ 1) := by
  constructor
  · intro hc h2
    have hcn : d.cards.getLast? = none := by rw [hc]; rfl
    have hmoved : (sh (d.cards ++ d.table.dropLast)).Perm d.table.dropLast := by
      rw [hc, List.nil_append]
      exact hsh _
    have hlen : (sh (d.cards ++ d.table.dropLast)).length = d.table.length - 1 := by
      rw [hmoved.length_eq, List.length_dropLast]
    have hne : sh (d.cards ++ d.table.dropLast) ≠ [] := by
      intro hnil
      rw [hnil] at hlen
      simp at hlen
      omega
    obtain ⟨c, hcl⟩ : ∃ c, (sh (d.cards ++ d.table.dropLast)).getLast? = some c := by
      rcases hq : (sh (d.cards ++ d.table.dropLast)).getLast? with _ | c
      · exact absurd (List.getLast?_eq_none_iff.mp hq) hne
      · exact ⟨c, rfl⟩
    refine ⟨c, ⟨(sh (d.cards ++ d.table.dropLast)).dropLast,
        d.table.drop (d.table.length - 1)⟩, ?_, ?_, ?_, ?_⟩
    · simp only [Deck.get_down, hcn, hcl]
    · simp only [List.length_drop]
      omega
    · rw [List.getLast?_eq_getElem?, List.getLast?_eq_getElem?,
        List.getElem?_drop, List.length_drop]
      congr 1
      omega
    · have hgl : (sh (d.cards ++ d.table.dropLast)).getLast hne = c := by
        have h' := List.getLast?_eq_getLast (sh (d.cards ++ d.table.dropLast)) hne
        rw [h'] at hcl
        exact Option.some_inj.mp hcl
      have hsplit := List.dropLast_append_getLast hne
      rw [hgl] at hsplit
      rw [hsplit]
      exact hmoved
  · constructor
    · intro hnone
      rcases hq : d.cards.getLast? with _ | c
      · have hcnil := List.getLast?_eq_none_iff.mp hq
        refine ⟨hcnil, ?_⟩
        simp only [Deck.get_down, hq] at hnone
        rcases hq2 : (sh (d.cards ++ d.table.dropLast)).getLast? with _ | c2
        · have hn2 := List.getLast?_eq_none_iff.mp hq2
          have hlen := (hsh (d.cards ++ d.table.dropLast)).length_eq
          rw [hn2] at hlen
          simp [hcnil] at hlen
          omega
        · simp only [hq2] at hnone
          simp at hnone
      · simp only [Deck.get_down, hq] at hnone
        simp at hnone
    · intro ⟨hc, h1⟩
      have hmnil : d.cards ++ d.table.dropLast = [] := by
        rw [hc, List.nil_append]
        have hld := List.length_dropLast d.table
        have h0 : d.table.dropLast.length = 0 := by omega
        exact List.length_eq_zero.mp h0
      have hnil : sh (d.cards ++ d.table.dropLast) = [] := by
        rw [hmnil]
        exact (hsh []).eq_nil
      simp only [Deck.get_down, show d.cards.getLast? = none by rw [hc]; rfl,
        List.getLast?_eq_none_iff.mpr hnil]

/-- C6 amended, witness. -/
theorem get_down_reshuffle_witness :
    (∀ l : List Card, (id l).Perm l) ∧
    (((⟨[], [⟨Suit.Oros, 5⟩, ⟨Suit.Copas, 2⟩]⟩ : Deck)).cards = [] →
      2 ≤ ((⟨[], [⟨Suit.Oros, 5⟩, ⟨Suit.Copas, 2⟩]⟩ : Deck)).table.length →
      ∃ c d', Deck.get_down id ⟨[], [⟨Suit.Oros, 5⟩, ⟨Suit.Copas, 2⟩]⟩ = some (c, d') ∧
        d'.table.length = 1 ∧
        d'.table.getLast? = ((⟨[], [⟨Suit.Oros, 5⟩, ⟨Suit.Copas, 2⟩]⟩ : Deck)).table.getLast? ∧
        (d'.cards ++ [c]).Perm ((⟨[], [⟨Suit.Oros, 5⟩, ⟨Suit.Copas, 2⟩]⟩ : Deck)).table.dropLast) ∧
    (Deck.get_down id ⟨[], [⟨Suit.Oros, 5⟩, ⟨Suit.Copas, 2⟩]⟩ = none ↔
      ((⟨[], [⟨Suit.Oros, 5⟩, ⟨Suit.Copas, 2⟩]⟩ : Deck)).cards = [] ∧
      ((⟨[], [⟨Suit.Oros, 5⟩, ⟨Suit.Copas, 2⟩]⟩ : Deck)).table.length ≤ 1) :=
  ⟨fun l => List.Perm.refl l,
   (get_down_reshuffle id ⟨[], [⟨Suit.Oros, 5⟩, ⟨Suit.Copas, 2⟩]⟩ (fun l => List.Perm.refl l)).1,
   (get_down_reshuffle id ⟨[], [⟨Suit.Oros, 5⟩, ⟨Suit.Copas, 2⟩]⟩ (fun l => List.Perm.refl l)).2⟩

end Chinchon

namespace Chinchon

/-- C7: on a close, each hand's evaluated total is added to that player's
running count with an exact 0 replaced by -10; if the human's updated
count exceeds 100 the machine is declared cycle winner and both counts
reset, else if the machine's updated count exceeds 100 the human is
declared winner and both counts reset. -/
theorem flip_scoring (hc mc : List Card) (s : Scores) (hb mb : Option (List Card))
    (hval mval : Nat)
    (hh : evaluate hc = some (hb, hval)) (hm : evaluate mc = some (mb, mval)) :
    gameFlip hc mc s = some (flipScore hval mval s) ∧
    flipScore hval mval s =
      (if 100 < s.human_count + (if hval = 0 then -10 else (hval : Int)) then
        (⟨0, 0⟩, some Winner.machine)
      else if 100 < s.machine_count + (if mval = 0 then -10 else (mval : Int)) then
        (⟨0, 0⟩, some Winner.human)
      else (⟨s.human_count + (if hval = 0 then -10 else (hval : Int)),
            s.machine_count + (if mval = 0 then -10 else (mval : Int))⟩, none)) := by
  constructor
  · rw [gameFlip, hh, hm]
  · by_cases hA : (100 : Int) < s.human_count + (if hval = 0 then -10 else (hval : Int))
    · simp only [flipScore, hA, if_true]
      norm_num
    · by_cases hB : (100 : Int) < s.machine_count + (if mval = 0 then -10 else (mval : Int))
      · simp only [flipScore, hA, hB, if_true, if_false]
      · simp only [flipScore, hA, hB, if_false]

/-- C7, witness. -/
theorem flip_scoring_witness :
    evaluate [(⟨Suit.Oros, 5⟩ : Card)] = some (some [⟨Suit.Oros, 5⟩], 5) ∧
    gameFlip [(⟨Suit.Oros, 5⟩ : Card)] [(⟨Suit.Oros, 5⟩ : Card)] ⟨0, 0⟩
      = some (flipScore 5 5 ⟨0, 0⟩) ∧
    flipScore 5 5 ⟨0, 0⟩ =
      (if 100 < (⟨0, 0⟩ : Scores).human_count + (if 5 = 0 then -10 else ((5 : Nat) : Int)) then
        (⟨0, 0⟩, some Winner.machine)
      else if 100 < (⟨0, 0⟩ : Scores).machine_count + (if 5 = 0 then -10 else ((5 : Nat) : Int)) then
        (⟨0, 0⟩, some Winner.human)
      else (⟨(⟨0, 0⟩ : Scores).human_count + (if 5 = 0 then -10 else ((5 : Nat) : Int)),
            (⟨0, 0⟩ : Scores).machine_count + (if 5 = 0 then -10 else ((5 : Nat) : Int))⟩, none)) :=
  ⟨by decide,
   flip_scoring [(⟨Suit.Oros, 5⟩ : Card)] [(⟨Suit.Oros, 5⟩ : Card)] ⟨0, 0⟩
    (some [⟨Suit.Oros, 5⟩]) (some [⟨Suit.Oros, 5⟩]) 5 5 (by decide) (by decide)⟩

/-- C9 counterexample: two separately constructed card objects with equal
suit and rank do not compare equal — `Card` has no `__eq__`, so Python
falls back to identity comparison. -/
theorem card_eq_constructed_cex :
    pyEqCard ⟨0, ⟨Suit.Bastos, 5⟩⟩ ⟨1, ⟨Suit.Bastos, 5⟩⟩ = false ∧
    (⟨0, ⟨Suit.Bastos, 5⟩⟩ : CardObj).data.suit = (⟨1, ⟨Suit.Bastos, 5⟩⟩ : CardObj).data.suit ∧
    (⟨0, ⟨Suit.Bastos, 5⟩⟩ : CardObj).data.number
      = (⟨1, ⟨Suit.Bastos, 5⟩⟩ : CardObj).data.number := by
  decide

/-- C9 amended: card comparison is object identity, and only among the
card objects of one store with no duplicated (suit, number) pair — the
deck invariant — does it coincide with suit-and-rank equality. -/
theorem card_identity_eq (store : List CardObj)
    (hinj : ∀ x ∈ store, ∀ y ∈ store, x.data = y.data → x.ident = y.ident)
    (hids : ∀ x ∈ store, ∀ y ∈ store, x.ident = y.ident → x = y) :
    ∀ a ∈ store, ∀ b ∈ store,
      (pyEqCard a b = true ↔ a.data.suit = b.data.suit ∧ a.data.number = b.data.number) := by
  intro a ha b hb
  constructor
  · intro h
    have hab : a = b := hids a ha b hb (by simpa [pyEqCard] using h)
    rw [hab]
    exact ⟨rfl, rfl⟩
  · rintro ⟨h1, h2⟩
    have hd : a.data = b.data := by
      rcases a with ⟨ia, ⟨sa, na⟩⟩
      rcases b with ⟨ib, ⟨sb, nb⟩⟩
      simp only at h1 h2
      simp [h1, h2]
    simpa [pyEqCard] using hinj a ha b hb hd

/-- C9 amended, witness. -/
theorem card_identity_eq_witness :
    (∀ x ∈ [(⟨0, ⟨Suit.Bastos, 1⟩⟩ : CardObj), ⟨1, ⟨Suit.Oros, 5⟩⟩],
      ∀ y ∈ [(⟨0, ⟨Suit.Bastos, 1⟩⟩ : CardObj), ⟨1, ⟨Suit.Oros, 5⟩⟩],
        x.data = y.data → x.ident = y.ident) ∧
    (∀ x ∈ [(⟨0, ⟨Suit.Bastos, 1⟩⟩ : CardObj), ⟨1, ⟨Suit.Oros, 5⟩⟩],
      ∀ y ∈ [(⟨0, ⟨Suit.Bastos, 1⟩⟩ : CardObj), ⟨1, ⟨Suit.Oros, 5⟩⟩],
        x.ident = y.ident → x = y) ∧
    (∀ a ∈ [(⟨0, ⟨Suit.Bastos, 1⟩⟩ : CardObj), ⟨1, ⟨Suit.Oros, 5⟩⟩],
      ∀ b ∈ [(⟨0, ⟨Suit.Bastos, 1⟩⟩ : CardObj), ⟨1, ⟨Suit.Oros, 5⟩⟩],
        (pyEqCard a b = true ↔
          a.data.suit = b.data.suit ∧ a.data.number = b.data.number)) :=
  ⟨by decide, by decide,
    card_identity_eq [⟨0, ⟨Suit.Bastos, 1⟩⟩, ⟨1, ⟨Suit.Oros, 5⟩⟩] (by decide) (by decide)⟩

end Chinchon

namespace Chinchon

/-- Anything permuting a replicate list is that very list. -/
lemma eq_replicate_of_perm {c : Card} {n : Nat} {p : List Card}
    (h : p.Perm (List.replicate n c)) : p = List.replicate n c := by
  rw [List.eq_replicate_iff]
  refine ⟨h.length_eq.trans (List.length_replicate n c), ?_⟩
  intro b hb
  exact List.eq_of_mem_replicate (h.mem_iff.mp hb)

/-- Once the state records a permutation `L`, scanning further copies of
`L` changes nothing. -/
lemma evalLoop_const (L : List Card) (t0 p0 : Nat)
    (hse : straight_evaluate L = (t0, p0)) :
    ∀ qs : List (List Card), (∀ q ∈ qs, q = L) →
      evalLoop qs t0 (some p0) (some L) = some (some L, t0) := by
  intro qs
  induction qs with
  | nil => intro _; rfl
  | cons q qs ih =>
    intro hall
    have hq : q = L := hall q (List.mem_cons_self q qs)
    subst hq
    simp only [evalLoop, hse, lt_self_iff_false, if_false, ite_self, if_pos trivial,
      gt_iff_lt, ite_true]
    exact ih (fun q2 hq2 => hall q2 (List.mem_cons_of_mem _ hq2))

/-- On a hand of identical cards, `evaluate` returns that very list and
its scan total: every permutation is the same list. -/
lemma evaluate_replicate (n : Nat) (c : Card)
    (h900 : (straight_evaluate (List.replicate n c)).1 < 900) :
    evaluate (List.replicate n c)
      = some (some (List.replicate n c), (straight_evaluate (List.replicate n c)).1) := by
  have hall : ∀ p ∈ permsIt (List.replicate n c), p = List.replicate n c := fun p hp =>
    eq_replicate_of_perm (permsIt_sound _ p hp)
  rcases hq : permsIt (List.replicate n c) with _ | ⟨q, qs⟩
  · have hself := self_mem_permsIt (List.replicate n c)
    rw [hq] at hself
    simp at hself
  · have hqR : q = List.replicate n c := hall q (by rw [hq]; exact List.mem_cons_self _ _)
    subst hqR
    rcases hse : straight_evaluate (List.replicate n c) with ⟨t0, p0⟩
    rw [hse] at h900
    simp only at h900
    rw [evaluate, hq]
    simp only [evalLoop, hse]
    rw [if_pos h900]
    simp only [Option.isNone_none, ite_true]
    exact evalLoop_const _ t0 p0 hse qs
      (fun q2 hq2 => hall q2 (by rw [hq]; exact List.mem_cons_of_mem _ hq2))

/-- A found index is inside the list (shifted by the start index). -/
lemma findIdx?_lt {α : Type} (pr : α → Bool) :
    ∀ (l : List α) (s i : Nat), List.findIdx? pr l s = some i → i < s + l.length := by
  intro l
  induction l with
  | nil => intro s i h; simp [List.findIdx?] at h
  | cons x xs ih =>
    intro s i h
    rw [List.findIdx?_cons] at h
    by_cases hp : pr x
    · rw [if_pos hp] at h
      obtain rfl := Option.some_inj.mp h.symm
      simp
    · rw [if_neg hp] at h
      have := ih (s + 1) i h
      simp only [List.length_cons]
      omega

/-- A successful `get_deck` appended one card to a 7-card hand. -/
lemma get_deck_ok_length (sh : List Card → List Card) (h : Hand) (a : Unit) (h2 : Hand)
    (hd : Hand.get_deck sh h = Outcome.ok a h2) : h2.cards.length = 8 := by
  rw [Hand.get_deck] at hd
  split at hd
  · simp at hd
  · rename_i h7
    split at hd
    · simp at hd
    · rename_i pr hgd
      injection hd with _ hh
      rw [← hh]
      simp only [List.length_append, List.length_cons, List.length_nil]
      omega

/-- A successful `get_table` appended one card to a 7-card hand. -/
lemma get_table_ok_length (h : Hand) (a : Unit) (h2 : Hand)
    (hd : Hand.get_table h = Outcome.ok a h2) : h2.cards.length = 8 := by
  rw [Hand.get_table] at hd
  split at hd
  · simp at hd
  · rename_i h7
    split at hd
    · simp at hd
    · rename_i pr hgt
      injection hd with _ hh
      rw [← hh]
      simp only [List.length_append, List.length_cons, List.length_nil]
      omega

/-- C10: whenever the automated `move` returns a close position
`p ≠ -1`, the hand it leaves behind evaluates, after removing the card at
`p`, to strictly less than 5 — so the subsequent `throw p flip=True` on
that unchanged hand succeeds instead of raising the more-than-4
`IllegalMovement`. -/
theorem move_close_safe (sh : List Card → List Card) (h : Hand) (p : Int) (h' : Hand)
    (hmove : Hand.move sh h = Outcome.ok p h') (hp : p ≠ -1) :
    ∃ pb v, evaluate (h'.cards.eraseIdx p.toNat) = some (pb, v) ∧ v < 5 ∧
      Hand.throw h' p.toNat true
        = Outcome.ok () ⟨h'.cards.eraseIdx p.toNat,
            h'.deck.put (h'.cards.getD p.toNat default)⟩ := by
  rw [Hand.move] at hmove
  split at hmove
  any_goals simp at hmove
  rename_i b hdt
  generalize hdrew_def : (if b = true then Hand.get_deck sh h else Hand.get_table h) = drew at hmove
  split at hmove
  any_goals simp at hmove
  rename_i a h2
  have h8 : h2.cards.length = 8 := by
    have hdo : (if b = true then Hand.get_deck sh h else Hand.get_table h)
        = Outcome.ok a h2 := hdrew_def
    rcases b with _ | _
    · rw [if_neg (by simp)] at hdo
      exact get_table_ok_length h a h2 hdo
    · rw [if_pos rfl] at hdo
      exact get_deck_ok_length sh h a h2 hdo
  split at hmove
  any_goals simp at hmove
  rename_i posOpt v1 heval8
  split at hmove
  any_goals simp at hmove
  rename_i pos hpos
  split at hmove
  any_goals simp at hmove
  rename_i to_throw h7th
  split at hmove
  any_goals simp at hmove
  rename_i nthrow hfind
  have hn8 : nthrow < 8 := by
    have := findIdx?_lt (fun card => to_throw == card) h2.cards 0 nthrow hfind
    omega
  split at hmove
  any_goals simp at hmove
  rename_i pos7 val hevalE
  split at hmove
  · -- val < 5
    rename_i hv5
    split at hmove
    any_goals simp at hmove
    rename_i p7 hp7
    split at hmove
    any_goals simp at hmove
    rename_i c6 hc6
    split at hmove
    · -- the close branch: hmove : Outcome.ok ↑nthrow h2 = Outcome.ok p h'
      injection hmove with hpn hhh
      subst hhh
      have hpt : p.toNat = nthrow := by
        rw [← hpn]
        exact Int.toNat_natCast nthrow
      rw [hpt]
      refine ⟨_, val, hevalE, hv5, ?_⟩
      rw [Hand.throw, if_neg (by rw [h8]; simp), if_pos rfl,
        if_pos (by rw [h8]; exact hn8), hevalE]
      simp [Nat.not_lt.mpr (by omega : val ≤ 4)]
    · -- throw-and-return -1: contradicts p ≠ -1
      split at hmove
      · injection hmove with hpn _
        exact absurd hpn.symm hp
      · simp at hmove
      · simp at hmove
  · -- val ≥ 5: throw-and-return -1: contradicts p ≠ -1
    split at hmove
    · injection hmove with hpn _
      exact absurd hpn.symm hp
    · simp at hmove
    · simp at hmove

end Chinchon

namespace Chinchon

/-- Scan of seven identical `4O` cards: two sets meld, one card is left. -/
lemma se_rep7 : straight_evaluate (List.replicate 7 (⟨Suit.Oros, 4⟩ : Card)) = (4, 0) := by
  decide

/-- Scan of eight identical `4O` cards: two sets meld, two cards left. -/
lemma se_rep8 : straight_evaluate (List.replicate 8 (⟨Suit.Oros, 4⟩ : Card)) = (8, 1) := by
  decide

/-- Evaluation of seven identical `4O` cards. -/
lemma ev_rep7 : evaluate (List.replicate 7 (⟨Suit.Oros, 4⟩ : Card))
    = some (some (List.replicate 7 ⟨Suit.Oros, 4⟩), 4) := by
  have h := evaluate_replicate 7 ⟨Suit.Oros, 4⟩ (by rw [se_rep7]; norm_num)
  rw [se_rep7] at h
  exact h

/-- Evaluation of eight identical `4O` cards. -/
lemma ev_rep8 : evaluate (List.replicate 8 (⟨Suit.Oros, 4⟩ : Card))
    = some (some (List.replicate 8 ⟨Suit.Oros, 4⟩), 8) := by
  have h := evaluate_replicate 8 ⟨Suit.Oros, 4⟩ (by rw [se_rep8]; norm_num)
  rw [se_rep8] at h
  exact h

/-- Symbolic computation rule for `deck_or_table`, given the values of
its three effectful subcalls. -/
lemma deck_or_table_eq (h : Hand) (b1 b2 : Option (List Card)) (cur v2 : Nat) (topc : Card)
    (h1 : evaluate h.cards = some (b1, cur))
    (h2 : h.deck.last = some topc)
    (h3 : evaluate (h.cards ++ [topc]) = some (b2, v2)) :
    Hand.deck_or_table h = some (if v2 < cur then false else true) := by
  rw [Hand.deck_or_table, h1]
  dsimp only
  rw [h2]
  dsimp only
  rw [h3]

/-- Symbolic computation rule for `move` in the closing branch, given the
values of every subcall along the way. -/
lemma move_eq_close (sh : List Card → List Card) (h h2 : Hand) (b : Bool)
    (pos p7 : List Card) (v1 : Nat) (to_throw c6 : Card) (nthrow val : Nat)
    (hdt : h.deck_or_table = some b)
    (hdrew : (if b = true then Hand.get_deck sh h else Hand.get_table h) = Outcome.ok () h2)
    (he8 : evaluate h2.cards = some (some pos, v1))
    (h7th : pos[7]? = some to_throw)
    (hfind : List.findIdx? (fun card => to_throw == card) h2.cards = some nthrow)
    (heE : evaluate (h2.cards.eraseIdx nthrow) = some (some p7, val))
    (hval : val < 5)
    (h6 : p7[6]? = some c6)
    (hc6 : c6.number < 5) :
    Hand.move sh h = Outcome.ok (nthrow : Int) h2 := by
  rw [Hand.move, hdt]
  dsimp only
  rw [hdrew]
  dsimp only
  rw [he8]
  dsimp only
  rw [h7th]
  dsimp only
  rw [hfind]
  dsimp only
  rw [heE]
  dsimp only
  rw [if_pos hval]
  rw [h6]
  dsimp only
  rw [if_pos hc6]

/-- On a hand of seven `4O` with a `4O` on the deck and on the table, the
automated move draws from the deck and signals a close at position 0. -/
lemma move_repl_close :
    Hand.move id ⟨List.replicate 7 ⟨Suit.Oros, 4⟩, ⟨[⟨Suit.Oros, 4⟩], [⟨Suit.Oros, 4⟩]⟩⟩
      = Outcome.ok 0 ⟨List.replicate 8 ⟨Suit.Oros, 4⟩, ⟨[], [⟨Suit.Oros, 4⟩]⟩⟩ := by
  have hdt0 := deck_or_table_eq
    ⟨List.replicate 7 ⟨Suit.Oros, 4⟩, ⟨[⟨Suit.Oros, 4⟩], [⟨Suit.Oros, 4⟩]⟩⟩
    (some (List.replicate 7 ⟨Suit.Oros, 4⟩)) (some (List.replicate 8 ⟨Suit.Oros, 4⟩))
    4 8 ⟨Suit.Oros, 4⟩ ev_rep7 rfl ev_rep8
  rw [if_neg (by norm_num)] at hdt0
  exact move_eq_close id
    ⟨List.replicate 7 ⟨Suit.Oros, 4⟩, ⟨[⟨Suit.Oros, 4⟩], [⟨Suit.Oros, 4⟩]⟩⟩
    ⟨List.replicate 8 ⟨Suit.Oros, 4⟩, ⟨[], [⟨Suit.Oros, 4⟩]⟩⟩ true
    (List.replicate 8 ⟨Suit.Oros, 4⟩) (List.replicate 7 ⟨Suit.Oros, 4⟩) 8
    ⟨Suit.Oros, 4⟩ ⟨Suit.Oros, 4⟩ 0 4
    hdt0 (by decide) ev_rep8 (by decide) (by decide) ev_rep7 (by decide) (by decide) (by decide)

/-- C10, witness. -/
theorem move_close_safe_witness :
    Hand.move id ⟨List.replicate 7 ⟨Suit.Oros, 4⟩, ⟨[⟨Suit.Oros, 4⟩], [⟨Suit.Oros, 4⟩]⟩⟩
      = Outcome.ok 0 ⟨List.replicate 8 ⟨Suit.Oros, 4⟩, ⟨[], [⟨Suit.Oros, 4⟩]⟩⟩ ∧
    (0 : Int) ≠ -1 ∧
    ∃ pb v,
      evaluate (((⟨List.replicate 8 ⟨Suit.Oros, 4⟩, ⟨[], [⟨Suit.Oros, 4⟩]⟩⟩ : Hand)).cards.eraseIdx
          (0 : Int).toNat) = some (pb, v) ∧ v < 5 ∧
      Hand.throw ⟨List.replicate 8 ⟨Suit.Oros, 4⟩, ⟨[], [⟨Suit.Oros, 4⟩]⟩⟩ (0 : Int).toNat true
        = Outcome.ok ()
            ⟨((⟨List.replicate 8 ⟨Suit.Oros, 4⟩, ⟨[], [⟨Suit.Oros, 4⟩]⟩⟩ : Hand)).cards.eraseIdx
                (0 : Int).toNat,
              ((⟨List.replicate 8 ⟨Suit.Oros, 4⟩, ⟨[], [⟨Suit.Oros, 4⟩]⟩⟩ : Hand)).deck.put
                (((⟨List.replicate 8 ⟨Suit.Oros, 4⟩, ⟨[], [⟨Suit.Oros, 4⟩]⟩⟩ : Hand)).cards.getD
                  (0 : Int).toNat default)⟩ :=
  ⟨move_repl_close, by decide,
    move_close_safe id ⟨List.replicate 7 ⟨Suit.Oros, 4⟩, ⟨[⟨Suit.Oros, 4⟩], [⟨Suit.Oros, 4⟩]⟩⟩ 0
      ⟨List.replicate 8 ⟨Suit.Oros, 4⟩, ⟨[], [⟨Suit.Oros, 4⟩]⟩⟩ move_repl_close (by decide)⟩

end Chinchon
